import Mathlib

/-!
Verification of hajimehoshi/go-mp3 core claims.

Shallow embedding of the decoder pieces under scrutiny:
* the bit cursor (`internal/bits/bits.go`),
* reservoir / main-data assembly (`maindata.go` / `internal/maindata`),
* the scale-factor + Huffman read stage (`readMainL3` / `readHuffman`),
* the MS-stereo and frequency-inversion numeric stages (`internal/frame/frame.go`),
* the streaming reader error mapping (`decode.go`).

Go machine integers are modelled as `Nat`/`Int` with explicit `% 2^w`
where overflow matters; Go slices of bytes as `List Nat` with the byte
bound `< 256` carried as a hypothesis; Go panics (out-of-range array
indexing) and returned errors as `Except` errors.
-/

namespace GoMp3

/-! ## Bit cursor (src/internal/bits/bits.go) -/

/-- The `Bits` cursor: a byte buffer (`Vec`), a byte position (`pos`)
and a bit index inside the current byte (`idx`), as in `bits.go`. -/
structure Bits where
  vec : List Nat
  pos : Nat
  idx : Nat
  deriving Repr, DecidableEq

/-- `(*Bits).Bits(num)` from `bits.go`: read `num` bits MSB-first.
`copy(bb, b.Vec[b.pos:])` pads with zero bytes, modelled by `List.getD _ _ 0`;
the `uint32` shifts are modelled with an explicit `% 2^32`. Returns the
value and the advanced cursor. -/
def Bits.bits (b : Bits) (num : Nat) : Nat × Bits :=
  if num = 0 then (0, b)
  else if b.vec.length ≤ b.pos then (0, b)
  else
    let b0 := b.vec.getD b.pos 0
    let b1 := b.vec.getD (b.pos + 1) 0
    let b2 := b.vec.getD (b.pos + 2) 0
    let b3 := b.vec.getD (b.pos + 3) 0
    let tmp0 := (b0 <<< 24) ||| (b1 <<< 16) ||| (b2 <<< 8) ||| b3
    let tmp1 := (tmp0 <<< b.idx) % 2 ^ 32
    let tmp2 := tmp1 >>> (32 - num)
    (tmp2, { b with pos := b.pos + (b.idx + num) / 8, idx := (b.idx + num) % 8 })

/-- `(*Bits).Pos()` / `BitPos()`: cursor position in bits. -/
def Bits.bitPos (b : Bits) : Nat :=
  b.pos * 8 + b.idx

/-- `(*Bits).SetPos(bit_pos)`. -/
def Bits.setPos (b : Bits) (p : Nat) : Bits :=
  { b with pos := p / 8, idx := p % 8 }

/-- Bit number `j` of the buffer, counting MSB-first inside each byte
(bit 0 is the top bit of byte 0); bits past the end of the buffer are 0.
This is the specification-side notion of "the next bits of the buffer". -/
def bitAt (v : List Nat) (j : Nat) : Nat :=
  (v.getD (j / 8) 0 / 2 ^ (7 - j % 8)) % 2

/-- The value of the `n` bits starting at bit position `p`, MSB-first:
the specification-side meaning of `read(n)`. -/
def bitsVal (v : List Nat) (p : Nat) : Nat → Nat
  | 0 => 0
  | n + 1 => 2 * bitsVal v p n + bitAt v (p + n)

theorem Bits.bitPos_setPos (b : Bits) (p : Nat) : (b.setPos p).bitPos = p := by
  simp [Bits.setPos, Bits.bitPos]
  omega

/-- The 32-bit big-endian word formed from the (zero-padded) four bytes of
`v` starting at byte `pos`; the arithmetic counterpart of `tmp0` in
`Bits.bits`. -/
def word (v : List Nat) (pos : Nat) : Nat :=
  ((v.getD pos 0 * 256 + v.getD (pos + 1) 0) * 256 + v.getD (pos + 2) 0) * 256
    + v.getD (pos + 3) 0

theorem getD_lt_256 (v : List Nat) (hb : ∀ x ∈ v, x < 256) (i : Nat) :
    v.getD i 0 < 256 := by
  rcases Nat.lt_or_ge i v.length with h | h
  · rw [List.getD_eq_getElem v 0 h]
    exact hb _ (v.getElem_mem h)
  · rw [List.getD_eq_default v 0 h]
    norm_num

theorem lor_eq_add (c k w : Nat) (hw : w < 2 ^ k) :
    (c * 2 ^ k) ||| w = c * 2 ^ k + w := by
  apply Nat.eq_of_testBit_eq
  intro i
  rw [Nat.testBit_lor, Nat.testBit_to_div_mod, Nat.testBit_to_div_mod,
    Nat.testBit_to_div_mod]
  rcases Nat.lt_or_ge i k with hik | hik
  · have hsplit : (2 : Nat) ^ k = 2 ^ i * 2 ^ (k - i) := by
      rw [← pow_add]
      congr 1
      omega
    have hki : k - i = (k - i - 1) + 1 := by omega
    have e1 : (c * 2 ^ k + w) / 2 ^ i = 2 ^ (k - i) * c + w / 2 ^ i := by
      rw [hsplit, show c * (2 ^ i * 2 ^ (k - i)) = 2 ^ i * (2 ^ (k - i) * c) by ring,
        Nat.mul_add_div (Nat.pos_pow_of_pos i (by norm_num))]
    have e2 : (c * 2 ^ k) / 2 ^ i = 2 ^ (k - i) * c := by
      have := e1
      rw [hsplit, show c * (2 ^ i * 2 ^ (k - i)) = 2 ^ i * (2 ^ (k - i) * c) by ring]
      rw [Nat.mul_div_cancel_left _ (Nat.pos_pow_of_pos i (by norm_num))]
    have e3 : ∀ y : Nat, (2 ^ (k - i) * c + y) % 2 = y % 2 := by
      intro y
      rw [hki, pow_succ, show 2 ^ (k - i - 1) * 2 * c = 2 * (2 ^ (k - i - 1) * c) by ring,
        Nat.mul_add_mod]
    rw [e1, e2, e3, show 2 ^ (k - i) * c = 2 ^ (k - i) * c + 0 by ring, e3]
    simp
  · have hsplit : (2 : Nat) ^ i = 2 ^ k * 2 ^ (i - k) := by
      rw [← pow_add]
      congr 1
      omega
    have hw0 : w / 2 ^ i = 0 := Nat.div_eq_of_lt (lt_of_lt_of_le hw (Nat.pow_le_pow_right (by norm_num) hik))
    have e1 : (c * 2 ^ k + w) / 2 ^ i = c / 2 ^ (i - k) := by
      rw [hsplit, ← Nat.div_div_eq_div_mul,
        show c * 2 ^ k + w = 2 ^ k * c + w by ring,
        Nat.mul_add_div (Nat.pos_pow_of_pos k (by norm_num)),
        Nat.div_eq_of_lt hw]
      simp
    have e2 : (c * 2 ^ k) / 2 ^ i = c / 2 ^ (i - k) := by
      rw [hsplit, ← Nat.div_div_eq_div_mul, mul_comm,
        Nat.mul_div_cancel_left _ (Nat.pos_pow_of_pos k (by norm_num))]
    rw [e1, e2, hw0]
    simp

theorem tmp0_eq_word (v : List Nat) (hb : ∀ x ∈ v, x < 256) (pos : Nat) :
    (v.getD pos 0 <<< 24) ||| (v.getD (pos + 1) 0 <<< 16) |||
      (v.getD (pos + 2) 0 <<< 8) ||| v.getD (pos + 3) 0 = word v pos := by
  have h0 := getD_lt_256 v hb pos
  have h1 := getD_lt_256 v hb (pos + 1)
  have h2 := getD_lt_256 v hb (pos + 2)
  have h3 := getD_lt_256 v hb (pos + 3)
  set b0 := v.getD pos 0
  set b1 := v.getD (pos + 1) 0
  set b2 := v.getD (pos + 2) 0
  set b3 := v.getD (pos + 3) 0
  rw [Nat.shiftLeft_eq, Nat.shiftLeft_eq, Nat.shiftLeft_eq]
  have s1 : b0 * 2 ^ 24 ||| b1 * 2 ^ 16 = b0 * 2 ^ 24 + b1 * 2 ^ 16 := by
    apply lor_eq_add
    calc b1 * 2 ^ 16 < 256 * 2 ^ 16 :=
          (Nat.mul_lt_mul_right (by norm_num : (0:ℕ) < 2 ^ 16)).mpr h1
      _ = 2 ^ 24 := by norm_num
  have s2 : (b0 * 2 ^ 8 + b1) * 2 ^ 16 ||| b2 * 2 ^ 8
      = (b0 * 2 ^ 8 + b1) * 2 ^ 16 + b2 * 2 ^ 8 := by
    apply lor_eq_add
    calc b2 * 2 ^ 8 < 256 * 2 ^ 8 :=
          (Nat.mul_lt_mul_right (by norm_num : (0:ℕ) < 2 ^ 8)).mpr h2
      _ = 2 ^ 16 := by norm_num
  have s3 : ((b0 * 2 ^ 8 + b1) * 2 ^ 8 + b2) * 2 ^ 8 ||| b3
      = ((b0 * 2 ^ 8 + b1) * 2 ^ 8 + b2) * 2 ^ 8 + b3 := by
    apply lor_eq_add
    calc b3 < 256 := h3
      _ = 2 ^ 8 := by norm_num
  rw [s1, show b0 * 2 ^ 24 + b1 * 2 ^ 16 = (b0 * 2 ^ 8 + b1) * 2 ^ 16 by ring, s2,
    show (b0 * 2 ^ 8 + b1) * 2 ^ 16 + b2 * 2 ^ 8 = ((b0 * 2 ^ 8 + b1) * 2 ^ 8 + b2) * 2 ^ 8 by ring,
    s3]
  unfold word
  ring

theorem byte_step_div (a b : Nat) (hb : b < 256) : (a * 256 + b) / 256 = a := by
  rw [show a * 256 + b = 256 * a + b by ring,
    Nat.mul_add_div (by norm_num), Nat.div_eq_of_lt hb]
  simp

theorem byte_step_mod (a b : Nat) (hb : b < 256) : (a * 256 + b) % 256 = b := by
  rw [show a * 256 + b = 256 * a + b by ring, Nat.mul_add_mod, Nat.mod_eq_of_lt hb]

/-- A bit of a number depends only on its low byte, as long as the bit
index stays below 8. -/
theorem bit_from_low_byte (x s : Nat) (hs : s ≤ 7) :
    x / 2 ^ s % 2 = x % 256 / 2 ^ s % 2 := by
  have hx : x = 256 * (x / 256) + x % 256 := (Nat.div_add_mod x 256).symm
  have e1 : x / 2 ^ s = 2 ^ (8 - s) * (x / 256) + x % 256 / 2 ^ s := by
    conv_lhs => rw [hx]
    have hm : (256 : Nat) * (x / 256) = 2 ^ s * (2 ^ (8 - s) * (x / 256)) := by
      rw [← mul_assoc, ← pow_add, show s + (8 - s) = 8 by omega]
      norm_num
    rw [hm, Nat.mul_add_div (Nat.pos_pow_of_pos s (by norm_num))]
  rw [e1, show 8 - s = (8 - s - 1) + 1 by omega, pow_succ,
    show 2 ^ (8 - s - 1) * 2 * (x / 256) = 2 * (2 ^ (8 - s - 1) * (x / 256)) by ring,
    Nat.mul_add_mod]

theorem word_digit (v : List Nat) (hb : ∀ x ∈ v, x < 256) (pos : Nat) :
    ∀ q, q ≤ 3 → word v pos / 2 ^ (8 * (3 - q)) % 256 = v.getD (pos + q) 0 := by
  have h0 := getD_lt_256 v hb pos
  have h1 := getD_lt_256 v hb (pos + 1)
  have h2 := getD_lt_256 v hb (pos + 2)
  have h3 := getD_lt_256 v hb (pos + 3)
  have d1 : word v pos / 256 = (v.getD pos 0 * 256 + v.getD (pos + 1) 0) * 256
      + v.getD (pos + 2) 0 := byte_step_div _ _ h3
  have d2 : word v pos / 256 / 256 = v.getD pos 0 * 256 + v.getD (pos + 1) 0 := by
    rw [d1]
    exact byte_step_div _ _ h2
  have d3 : word v pos / 256 / 256 / 256 = v.getD pos 0 := by
    rw [d2]
    exact byte_step_div _ _ h1
  intro q hq
  interval_cases q
  · have : word v pos / 2 ^ 24 = word v pos / 256 / 256 / 256 := by
      rw [Nat.div_div_eq_div_mul, Nat.div_div_eq_div_mul]
      norm_num
    rw [this, d3, Nat.mod_eq_of_lt h0]
    simp
  · have : word v pos / 2 ^ 16 = word v pos / 256 / 256 := by
      rw [Nat.div_div_eq_div_mul]
      norm_num
    rw [show 8 * (3 - 1) = 16 by norm_num, this, d2]
    exact byte_step_mod _ _ h1
  · rw [show 8 * (3 - 2) = 8 by norm_num, show (2 : Nat) ^ 8 = 256 by norm_num, d1]
    exact byte_step_mod _ _ h2
  · simp only [show 8 * (3 - 3) = 0 by norm_num, pow_zero, Nat.div_one]
    unfold word
    exact byte_step_mod _ _ h3

theorem bitAt_eq_word (v : List Nat) (hb : ∀ x ∈ v, x < 256) (pos t : Nat)
    (ht : t ≤ 31) : bitAt v (8 * pos + t) = word v pos / 2 ^ (31 - t) % 2 := by
  have hq : (8 * pos + t) / 8 = pos + t / 8 := by omega
  have hs : (8 * pos + t) % 8 = t % 8 := by omega
  have hq3 : t / 8 ≤ 3 := by omega
  have hexp : 31 - t = 8 * (3 - t / 8) + (7 - t % 8) := by omega
  rw [bitAt, hq, hs, hexp, pow_add, ← Nat.div_div_eq_div_mul,
    bit_from_low_byte (word v pos / 2 ^ (8 * (3 - t / 8))) (7 - t % 8) (by omega),
    word_digit v hb pos _ hq3]

theorem bitsVal_eq_word (v : List Nat) (hb : ∀ x ∈ v, x < 256) (pos idx : Nat) :
    ∀ n, idx + n ≤ 31 →
      bitsVal v (8 * pos + idx) n = word v pos / 2 ^ (32 - (idx + n)) % 2 ^ n := by
  intro n
  induction n with
  | zero =>
    intro _
    simp [bitsVal, Nat.mod_one]
  | succ n ih =>
    intro hn
    have hrec := ih (by omega)
    rw [bitsVal, hrec, show 8 * pos + idx + n = 8 * pos + (idx + n) by ring,
      bitAt_eq_word v hb pos (idx + n) (by omega)]
    set a := word v pos / 2 ^ (31 - (idx + n)) with ha
    have hdiv : word v pos / 2 ^ (32 - (idx + n)) = a / 2 := by
      rw [ha, Nat.div_div_eq_div_mul, ← pow_succ, show 31 - (idx + n) + 1 = 32 - (idx + n) by omega]
    have hsplit : 32 - (idx + (n + 1)) = 31 - (idx + n) := by omega
    rw [hsplit, ← ha, hdiv]
    have h1 : a = 2 * (a / 2) + a % 2 := (Nat.div_add_mod a 2).symm
    have h2 : 2 ^ (n + 1) = 2 * 2 ^ n := by rw [pow_succ]; ring
    have h3 : a / 2 % 2 ^ n < 2 ^ n := Nat.mod_lt _ (Nat.pos_pow_of_pos n (by norm_num))
    have h4 : a % 2 < 2 := Nat.mod_lt _ (by norm_num)
    have h5 : 2 * (a / 2) % (2 * 2 ^ n) = 2 * (a / 2 % 2 ^ n) := Nat.mul_mod_mul_left 2 _ _
    have hp : 0 < 2 ^ n := Nat.pos_pow_of_pos n (by norm_num)
    have key : a % 2 ^ (n + 1) = 2 * (a / 2 % 2 ^ n) + a % 2 := by
      conv_lhs => rw [h2, h1]
      rw [Nat.add_mod, h5, Nat.mod_eq_of_lt (show a % 2 < 2 * 2 ^ n by omega),
        Nat.mod_eq_of_lt (by omega)]
    omega

theorem code_value (w32 idx n : Nat) (hidxn : idx + n ≤ 32) :
    w32 * 2 ^ idx % 2 ^ 32 / 2 ^ (32 - n) = w32 / 2 ^ (32 - (idx + n)) % 2 ^ n := by
  have e32 : (2 : Nat) ^ 32 = 2 ^ (32 - idx) * 2 ^ idx := by
    rw [← pow_add]
    congr 1
    omega
  have h1 : w32 * 2 ^ idx % 2 ^ 32 = w32 % 2 ^ (32 - idx) * 2 ^ idx := by
    rw [e32, Nat.mul_mod_mul_right]
  have e2 : (2 : Nat) ^ (32 - n) = 2 ^ (32 - (idx + n)) * 2 ^ idx := by
    rw [← pow_add]
    congr 1
    omega
  have h2 : w32 % 2 ^ (32 - idx) * 2 ^ idx / 2 ^ (32 - n)
      = w32 % 2 ^ (32 - idx) / 2 ^ (32 - (idx + n)) := by
    rw [e2]
    exact Nat.mul_div_mul_right _ _ (Nat.pos_pow_of_pos idx (by norm_num))
  have h3 : w32 / 2 ^ (32 - (idx + n)) % 2 ^ n
      = w32 % (2 ^ (32 - (idx + n)) * 2 ^ n) / 2 ^ (32 - (idx + n)) :=
    (Nat.mod_mul_right_div_self _ _ _).symm
  have e3 : (2 : Nat) ^ (32 - (idx + n)) * 2 ^ n = 2 ^ (32 - idx) := by
    rw [← pow_add]
    congr 1
    omega
  rw [h1, h2, h3, e3]

/-- Core correctness of `Bits.bits` for a read issued strictly inside the
buffer: the returned value is the next `n` bits (MSB-first, missing bytes
read as zero) and the cursor advances by exactly `n` bits. -/
theorem bits_correct (v : List Nat) (pos idx n : Nat) (hb : ∀ x ∈ v, x < 256)
    (hidx : idx ≤ 7) (hn1 : 1 ≤ n) (hn : n ≤ 24) (hpos : pos < v.length) :
    (Bits.bits ⟨v, pos, idx⟩ n).1 = bitsVal v (8 * pos + idx) n ∧
    (Bits.bits ⟨v, pos, idx⟩ n).2.bitPos = (8 * pos + idx) + n := by
  have hnot0 : ¬ n = 0 := by omega
  have hnotlen : ¬ v.length ≤ pos := by omega
  constructor
  · show (Bits.bits ⟨v, pos, idx⟩ n).1 = _
    rw [Bits.bits]
    simp only [hnot0, if_false, hnotlen]
    rw [tmp0_eq_word v hb pos, Nat.shiftLeft_eq, Nat.shiftRight_eq_div_pow,
      code_value _ _ _ (by omega), bitsVal_eq_word v hb pos idx n (by omega)]
  · show (Bits.bits ⟨v, pos, idx⟩ n).2.bitPos = _
    rw [Bits.bits]
    simp only [hnot0, if_false, hnotlen]
    simp only [Bits.bitPos]
    omega

theorem bitAt_past (v : List Nat) (j : Nat) (h : 8 * v.length ≤ j) :
    bitAt v j = 0 := by
  rw [bitAt, List.getD_eq_default v 0 (by omega)]
  simp

theorem bitsVal_pad (v : List Nat) (p r : Nat) (h : 8 * v.length ≤ p + r) :
    ∀ m, bitsVal v p (r + m) = bitsVal v p r * 2 ^ m := by
  intro m
  induction m with
  | zero => simp
  | succ m ih =>
    rw [show r + (m + 1) = (r + m) + 1 by ring, bitsVal, ih,
      bitAt_past v _ (by omega), pow_succ]
    ring

/-- C6: for `0 ≤ n ≤ 24`, `read(n)` returns the next `n` bits of the buffer
MSB-first and advances the cursor by exactly `n` bits; `read(0)` returns 0
(and moves nothing), and a read issued with the byte position at or past the
end of the buffer returns 0 leaving the cursor in place (the embedding is
total, so no out-of-bounds access can occur). -/
theorem c6_bits_read (v : List Nat) (pos idx n : Nat) (hb : ∀ x ∈ v, x < 256)
    (hidx : idx ≤ 7) (hn : n ≤ 24) :
    (n = 0 → Bits.bits ⟨v, pos, idx⟩ n = (0, ⟨v, pos, idx⟩)) ∧
    (v.length ≤ pos → Bits.bits ⟨v, pos, idx⟩ n = (0, ⟨v, pos, idx⟩)) ∧
    (1 ≤ n → pos < v.length → 8 * pos + idx + n ≤ 8 * v.length →
      (Bits.bits ⟨v, pos, idx⟩ n).1 = bitsVal v (8 * pos + idx) n ∧
      (Bits.bits ⟨v, pos, idx⟩ n).2.bitPos = Bits.bitPos ⟨v, pos, idx⟩ + n) := by
  refine ⟨fun h0 => ?_, fun hlen => ?_, fun h1 h2 _ => ?_⟩
  · rw [Bits.bits, if_pos h0]
  · rw [Bits.bits]
    rcases Nat.eq_zero_or_pos n with h0 | h0
    · rw [if_pos h0]
    · rw [if_neg (by omega), if_pos hlen]
  · have h := bits_correct v pos idx n hb hidx h1 hn h2
    refine ⟨h.1, ?_⟩
    rw [h.2]
    simp only [Bits.bitPos]
    omega

/-- C6 witness: the 4-byte buffer of the repository's own `TestBits`, read
at bit position 12 with `n = 12`. -/
theorem c6_bits_read_witness :
    (Bits.bits ⟨[85, 170, 204, 51], 1, 4⟩ 12).1 = bitsVal [85, 170, 204, 51] 12 12 ∧
    (Bits.bits ⟨[85, 170, 204, 51], 1, 4⟩ 12).2.bitPos
      = Bits.bitPos ⟨[85, 170, 204, 51], 1, 4⟩ + 12 :=
  (c6_bits_read [85, 170, 204, 51] 1 4 12 (by decide) (by decide) (by decide)).2.2
    (by decide) (by decide) (by decide)

/-- C10 counterexample: the cursor sits strictly inside the buffer `[0x00]`
with only 8 bits remaining and `n = 9`, yet `read(9)` returns 0 — the claim
says such a read "does not return 0". -/
theorem c10_counterexample :
    (0 : Nat) < [0].length ∧ 8 * [0].length < 8 * 0 + 0 + 9 ∧
      (Bits.bits ⟨[0], 0, 0⟩ 9).1 = 0 := by
  decide

/-- C10 (amended): a read issued strictly inside the buffer with fewer than
`n` bits remaining (`0 < n ≤ 24`) returns the remaining bits of the buffer in
the most-significant positions with zero bits appended (missing bytes behave
as 0x00) — which is 0 only when those remaining bits are zero — and the
cursor advances by `n` bits to a position past the end of the buffer. -/
theorem c10_amended_partial_read (v : List Nat) (pos idx n : Nat)
    (hb : ∀ x ∈ v, x < 256) (hidx : idx ≤ 7) (hn1 : 1 ≤ n) (hn : n ≤ 24)
    (hpos : pos < v.length) (hover : 8 * v.length < 8 * pos + idx + n) :
    (Bits.bits ⟨v, pos, idx⟩ n).1 = bitsVal v (8 * pos + idx) n ∧
    bitsVal v (8 * pos + idx) n
      = bitsVal v (8 * pos + idx) (8 * v.length - (8 * pos + idx))
        * 2 ^ (n - (8 * v.length - (8 * pos + idx))) ∧
    (Bits.bits ⟨v, pos, idx⟩ n).2.bitPos = 8 * pos + idx + n ∧
    8 * v.length < (Bits.bits ⟨v, pos, idx⟩ n).2.bitPos := by
  have hc := bits_correct v pos idx n hb hidx hn1 hn hpos
  have hrem : 8 * pos + idx ≤ 8 * v.length := by omega
  set r := 8 * v.length - (8 * pos + idx) with hr
  refine ⟨hc.1, ?_, hc.2, by omega⟩
  rw [show n = r + (n - r) by omega, show r + (n - r) - r = n - r by omega]
  exact bitsVal_pad v (8 * pos + idx) r (by omega) (n - r)

/-- C10 witness: buffer `[0xff]`, 8 bits remaining, `n = 12`. -/
theorem c10_amended_partial_read_witness :
    (Bits.bits ⟨[255], 0, 0⟩ 12).1 = bitsVal [255] 0 12 ∧
    bitsVal [255] 0 12
      = bitsVal [255] 0 (8 * [255].length - (8 * 0 + 0)) * 2 ^ (12 - (8 * [255].length - (8 * 0 + 0))) ∧
    (Bits.bits ⟨[255], 0, 0⟩ 12).2.bitPos = 8 * 0 + 0 + 12 ∧
    8 * [255].length < (Bits.bits ⟨[255], 0, 0⟩ 12).2.bitPos := by
  have h := c10_amended_partial_read [255] 0 0 12 (by decide) (by decide)
    (by decide) (by decide) (by decide) (by decide)
  simpa using h

/-! ## Reservoir and main-data assembly (src/maindata.go, `getMainData`;
identical logic as `maindata.Read` in the internal/maindata version) -/

/-- Errors of the main-data assembly stage: the `size > 1500` rejection and
the short-read conversion to an unexpected-EOF error. -/
inductive MdErr where
  | sizeTooBig : MdErr
  | unexpectedEOF : String → MdErr
  deriving Repr, DecidableEq

/-- The last `k` bytes of a buffer — the specification-side reading of
"take the last `main_data_begin` bytes of the prior reservoir". -/
def lastBytes (l : List Nat) (k : Nat) : List Nat :=
  l.drop (l.length - k)

theorem lastBytes_length (l : List Nat) (k : Nat) (h : k ≤ l.length) :
    (lastBytes l k).length = k := by
  simp [lastBytes]
  omega

theorem lastBytes_suffix (l : List Nat) (k : Nat) :
    l.take (l.length - k) ++ lastBytes l k = l :=
  List.take_append_drop _ l

/-- `(*source).getMainData(prev, size, offset)` from `maindata.go`.
The byte source is modelled as the list `src` of bytes still to be read;
`getBytes` filling a `size`-byte buffer succeeds iff `size` bytes remain,
and a short read surfaces as the `unexpectedEOF` error exactly as in the
source. Returns the assembled `Bits` cursor and the rest of the source. -/
def getMainData (src : List Nat) (prev : Option Bits) (size offset : Nat) :
    Except MdErr (Bits × List Nat) :=
  if 1500 < size then .error .sizeTooBig
  else if prev.isSome ∧ (prev.getD ⟨[], 0, 0⟩).vec.length < offset then
    -- Not enough data in the reservoir: still read the main_data bytes and
    -- append them to the previous buffer (pdmp3 keeps a TODO here instead of
    -- returning a dedicated error).
    if src.length < size then .error (.unexpectedEOF "getMainData 1")
    else .ok (⟨(prev.getD ⟨[], 0, 0⟩).vec ++ src.take size, 0, 0⟩, src.drop size)
  else
    let vec : List Nat :=
      match prev with
      | none => []
      | some p => p.vec.drop (p.vec.length - offset)
    if src.length < size then .error (.unexpectedEOF "getMainData 2")
    else .ok (⟨vec ++ src.take size, 0, 0⟩, src.drop size)

/-- C1 (code evaluation at the failing input): with a previous reservoir of
0 bytes and `main_data_begin = 1 > 0`, `main_data_size = 2`, the stage
consumes the 2 bytes `[5, 6]`, appends them to the prior reservoir — and
returns them with **no error at all** (`Except.ok`), so the frame driver
proceeds to decode this frame instead of skipping it; no
`InsufficientReservoir` error exists in the code. -/
theorem c1_code_evaluation :
    ([] : List Nat).length < 1 ∧
    getMainData [5, 6] (some ⟨[], 0, 0⟩) 2 1 = .ok (⟨[5, 6], 0, 0⟩, []) := by
  constructor
  · decide
  · rfl

/-- C2: whenever `main_data_size ≤ 1500`, `main_data_begin` does not exceed
the previous reservoir length (no constraint when there is no previous
frame, where the reservoir contribution is empty), and the source holds
enough bytes, the assembly stage returns, without error, a cursor at bit 0
of the buffer `last main_data_begin bytes of the prior reservoir ++
main_data_size freshly read bytes`. -/
theorem c2_reservoir_window (src : List Nat) (prev : Option Bits)
    (size offset : Nat) (hsize : size ≤ 1500)
    (hoff : ∀ p, prev = some p → offset ≤ p.vec.length)
    (hsrc : size ≤ src.length) :
    getMainData src prev size offset
      = .ok (⟨(match prev with
                | none => []
                | some p => lastBytes p.vec offset) ++ src.take size, 0, 0⟩,
             src.drop size) := by
  rw [getMainData.eq_def]
  rw [if_neg (by omega)]
  match prev with
  | none =>
    rw [if_neg (by simp)]
    simp only
    rw [if_neg (by omega)]
  | some p =>
    have hp := hoff p rfl
    rw [if_neg (by simp; omega)]
    simp only
    rw [if_neg (by omega)]
    rfl

/-- C2 witness: reservoir `[1, 2, 3]`, `main_data_begin = 2`, two fresh
bytes out of `[7, 8, 9]`. -/
theorem c2_reservoir_window_witness :
    getMainData [7, 8, 9] (some ⟨[1, 2, 3], 0, 0⟩) 2 2
      = .ok (⟨[2, 3, 7, 8], 0, 0⟩, [9]) := by
  have h := c2_reservoir_window [7, 8, 9] (some ⟨[1, 2, 3], 0, 0⟩) 2 2
    (by norm_num)
    (by intro p hp; cases hp; decide)
    (by norm_num)
  rw [h]
  rfl

/-! ## Frame header (src/unnamed/part_000, package frameheader) -/

/-- Modelled from the spec: the numeric code of the reserved MPEG version ID
(`consts.VersionReserved`, the `consts` package is not under src/); per the
spec's header layout (version ID in bits 20..19, MPEG-1 = code 3) the
reserved code is 01b = 1. -/
def constsVersionReserved : Nat := 1

/-- Modelled from the spec: the numeric code of the reserved layer
(`consts.LayerReserved`, the `consts` package is not under src/); per the
spec's header layout (layer in bits 18..17, Layer III = code 1) the
reserved code is 00b = 0. -/
def constsLayerReserved : Nat := 0

/-- `FrameHeader.ID`: bits 20..19. -/
def fhID (h : Nat) : Nat := (h &&& 0x00180000) >>> 19

/-- `FrameHeader.Layer`: bits 18..17. -/
def fhLayer (h : Nat) : Nat := (h &&& 0x00060000) >>> 17

/-- `FrameHeader.BitrateIndex`: bits 15..12. -/
def fhBitrateIndex (h : Nat) : Nat := (h &&& 0x0000f000) >>> 12

/-- `FrameHeader.SamplingFrequency`: bits 11..10. -/
def fhSamplingFrequency (h : Nat) : Nat := (h &&& 0x00000c00) >>> 10

/-- `FrameHeader.Emphasis`: bits 1..0. -/
def fhEmphasis (h : Nat) : Nat := (h &&& 0x00000003) >>> 0

/-- `FrameHeader.IsValid` from the frameheader package, with the two
reserved codes taken from the modelled constants. -/
def fhIsValid (h : Nat) : Bool :=
  if ¬ (h &&& 0xffe00000 = 0xffe00000) then false
  else if fhID h = constsVersionReserved then false
  else if fhBitrateIndex h = 15 then false
  else if fhSamplingFrequency h = 3 then false
  else if fhLayer h = constsLayerReserved then false
  else if fhEmphasis h = 2 then false
  else true

/-- Extracting a masked, shifted field equals the div/mod field extraction. -/
theorem mask_shift (h k s : Nat) :
    (h &&& ((2 ^ k - 1) <<< s)) >>> s = h / 2 ^ s % 2 ^ k := by
  apply Nat.eq_of_testBit_eq
  intro i
  rw [Nat.testBit_shiftRight, Nat.testBit_land, Nat.testBit_shiftLeft,
    Nat.testBit_two_pow_sub_one, ← Nat.shiftRight_eq_div_pow,
    Nat.testBit_mod_two_pow, Nat.testBit_shiftRight]
  have e1 : s + i - s = i := by omega
  have e2 : s ≤ s + i := Nat.le_add_right s i
  simp [e1, e2, Bool.and_comm]

theorem sync_iff (h : Nat) :
    (h &&& 0xffe00000 = 0xffe00000) ↔ h / 2 ^ 21 % 2 ^ 11 = 2047 := by
  have hm : (0xffe00000 : Nat) = (2 ^ 11 - 1) <<< 21 := by
    rw [Nat.shiftLeft_eq]
    norm_num
  have hs := mask_shift h 11 21
  constructor
  · intro hsync
    rw [← hs, ← hm, hsync]
    decide
  · intro hv
    rw [hm]
    apply Nat.eq_of_testBit_eq
    intro i
    rw [Nat.testBit_land, Nat.testBit_shiftLeft, Nat.testBit_two_pow_sub_one]
    rcases Nat.lt_or_ge i 21 with hi | hi
    · simp [Nat.not_le.mpr hi]
    · rcases Nat.lt_or_ge i 32 with hi2 | hi2
      · have hbit : h.testBit i = true := by
          have h21 : i = 21 + (i - 21) := by omega
          rw [h21, ← Nat.testBit_shiftRight, Nat.shiftRight_eq_div_pow]
          have : (h / 2 ^ 21).testBit (i - 21)
              = (h / 2 ^ 21 % 2 ^ 11).testBit (i - 21) := by
            rw [Nat.testBit_mod_two_pow]
            simp [show i - 21 < 11 by omega]
          rw [this, hv]
          have : (2047 : Nat) = 2 ^ 11 - 1 := by norm_num
          rw [this, Nat.testBit_two_pow_sub_one]
          simp [show i - 21 < 11 by omega]
        simp [hbit, hi, show i - 21 < 11 by omega]
      · simp [Nat.not_lt.mpr (show 11 ≤ i - 21 by omega)]

theorem fhID_eq (h : Nat) : fhID h = h / 2 ^ 19 % 4 := by
  rw [fhID, show (0x00180000 : Nat) = (2 ^ 2 - 1) <<< 19 by rw [Nat.shiftLeft_eq]; norm_num,
    mask_shift]
  norm_num

theorem fhLayer_eq (h : Nat) : fhLayer h = h / 2 ^ 17 % 4 := by
  rw [fhLayer, show (0x00060000 : Nat) = (2 ^ 2 - 1) <<< 17 by rw [Nat.shiftLeft_eq]; norm_num,
    mask_shift]
  norm_num

theorem fhBitrateIndex_eq (h : Nat) : fhBitrateIndex h = h / 2 ^ 12 % 16 := by
  rw [fhBitrateIndex, show (0x0000f000 : Nat) = (2 ^ 4 - 1) <<< 12 by rw [Nat.shiftLeft_eq]; norm_num,
    mask_shift]
  norm_num

theorem fhSamplingFrequency_eq (h : Nat) : fhSamplingFrequency h = h / 2 ^ 10 % 4 := by
  rw [fhSamplingFrequency, show (0x00000c00 : Nat) = (2 ^ 2 - 1) <<< 10 by rw [Nat.shiftLeft_eq]; norm_num,
    mask_shift]
  norm_num

theorem fhEmphasis_eq (h : Nat) : fhEmphasis h = h % 4 := by
  rw [fhEmphasis, show (0x00000003 : Nat) = (2 ^ 2 - 1) <<< 0 by rw [Nat.shiftLeft_eq]; norm_num,
    mask_shift]
  norm_num

/-- C3 counterexample: the word 0xFFFA0000 (sync ok, MPEG-1, Layer III,
bitrate index 0 — free format —, sampling index 0, emphasis 0) is accepted
by `IsValid`, yet its bitrate index 0 is not in [1, 14] as the claim
requires. -/
theorem c3_counterexample :
    fhIsValid 0xFFFA0000 = true ∧ 0xFFFA0000 / 2 ^ 12 % 16 = 0 := by
  decide

/-- C3 (amended): `IsValid(h)` accepts exactly the words whose sync field
(bits 31..21) is all ones, whose version ID is not the reserved code, whose
layer is not the reserved code, whose bitrate index is **not 15** (index 0,
free format, is accepted by the validator and only rejected later by the
header reader), whose sampling-frequency index is in {0, 1, 2}, and whose
emphasis is not 2. -/
theorem c3_amended_validator (h : Nat) :
    fhIsValid h = true ↔
      (h / 2 ^ 21 % 2 ^ 11 = 2047 ∧ h / 2 ^ 19 % 4 ≠ constsVersionReserved ∧
        h / 2 ^ 17 % 4 ≠ constsLayerReserved ∧ h / 2 ^ 12 % 16 ≠ 15 ∧
        h / 2 ^ 10 % 4 ≤ 2 ∧ h % 4 ≠ 2) := by
  have hoist : fhIsValid h = true ↔
      (h &&& 0xffe00000 = 0xffe00000 ∧ ¬ fhID h = constsVersionReserved ∧
        ¬ fhBitrateIndex h = 15 ∧ ¬ fhSamplingFrequency h = 3 ∧
        ¬ fhLayer h = constsLayerReserved ∧ ¬ fhEmphasis h = 2) := by
    rw [fhIsValid]
    split_ifs with h1 h2 h3 h4 h5 h6 <;> simp_all
  rw [hoist, sync_iff, fhID_eq, fhBitrateIndex_eq, fhSamplingFrequency_eq,
    fhLayer_eq, fhEmphasis_eq]
  have hsf4 : h / 2 ^ 10 % 4 < 4 := Nat.mod_lt _ (by norm_num)
  constructor
  · rintro ⟨a, b, c, d, e, f⟩
    exact ⟨a, b, e, c, by omega, f⟩
  · rintro ⟨a, b, c, d, e, f⟩
    exact ⟨a, b, d, by omega, c, f⟩

/-! ## Frequency inversion (src/internal/frame/frame.go,
`(*Frame).frequencyInversion`). The 576-float granule vector is modelled as
a function `Nat → ℝ` (float negation is exact, so the real-valued model is
faithful for this stage). -/

/-- One Go assignment `is[k] = -is[k]`. -/
def negAt (v : Nat → ℝ) (k : Nat) : Nat → ℝ :=
  fun j => if j = k then -v j else v j

/-- `(*Frame).frequencyInversion`: `for sb := 1; sb < 32; sb += 2 { for
i := 1; i < 18; i += 2 { is[sb*18+i] = -is[sb*18+i] } }`; the loop counters
are the arithmetic progressions `range' 1 16 2` and `range' 1 9 2`. -/
def frequencyInversion (v : Nat → ℝ) : Nat → ℝ :=
  (List.range' 1 16 2).foldl
    (fun acc sb =>
      (List.range' 1 9 2).foldl (fun acc2 i => negAt acc2 (sb * 18 + i)) acc) v

/-- The flat list of indices negated by the two nested loops. -/
def fiIndices : List Nat :=
  (List.range' 1 16 2).flatMap (fun sb => (List.range' 1 9 2).map (fun i => sb * 18 + i))

theorem foldl_foldl_flatMap {α : Type} (f : α → Nat → α) (outer : List Nat)
    (inner : Nat → List Nat) (init : α) :
    outer.foldl (fun acc x => (inner x).foldl f acc) init
      = (outer.flatMap inner).foldl f init := by
  induction outer generalizing init with
  | nil => rfl
  | cons a l ih => simp [List.foldl_append, ih]

theorem foldl_negAt (l : List Nat) (hl : l.Nodup) (v : Nat → ℝ) (j : Nat) :
    (l.foldl negAt v) j = if j ∈ l then -v j else v j := by
  induction l generalizing v with
  | nil => simp
  | cons a l ih =>
    rw [List.foldl_cons, ih (List.Nodup.of_cons hl) (negAt v a)]
    have ha : a ∉ l := (List.nodup_cons.mp hl).1
    by_cases hj : j ∈ l
    · have hja : ¬ j = a := fun hc => ha (hc ▸ hj)
      rw [if_pos hj, if_pos (List.mem_cons_of_mem a hj), negAt, if_neg hja]
    · rw [if_neg hj, negAt]
      by_cases hja : j = a
      · rw [if_pos hja, if_pos (hja ▸ List.mem_cons_self a l)]
      · rw [if_neg hja, if_neg (by simp [hja, hj])]

theorem frequencyInversion_eq_flat (v : Nat → ℝ) :
    frequencyInversion v = fiIndices.foldl negAt v := by
  rw [frequencyInversion, fiIndices, ← foldl_foldl_flatMap]
  have hstep : (fun (acc : Nat → ℝ) sb =>
        (List.range' 1 9 2).foldl (fun acc2 i => negAt acc2 (sb * 18 + i)) acc)
      = fun (acc : Nat → ℝ) sb =>
        ((List.range' 1 9 2).map (fun i => sb * 18 + i)).foldl negAt acc := by
    funext acc sb
    rw [List.foldl_map]
  rw [hstep]

set_option maxRecDepth 8192 in
theorem fiIndices_nodup : fiIndices.Nodup := by
  decide

theorem mem_fiIndices (j : Nat) :
    j ∈ fiIndices ↔ (j < 576 ∧ j / 18 % 2 = 1 ∧ j % 18 % 2 = 1) := by
  rw [fiIndices]
  simp only [List.mem_flatMap, List.mem_map, List.mem_range']
  constructor
  · rintro ⟨sb, ⟨a, ha, rfl⟩, i, ⟨⟨b, hb, rfl⟩, rfl⟩⟩
    omega
  · rintro ⟨h1, h2, h3⟩
    refine ⟨1 + 2 * ((j / 18 - 1) / 2), ⟨(j / 18 - 1) / 2, by omega, rfl⟩,
      1 + 2 * ((j % 18 - 1) / 2), ⟨⟨(j % 18 - 1) / 2, by omega, rfl⟩, by omega⟩⟩

/-- C8: the frequency-inversion stage negates exactly the samples
`is[sb*18+i]` with `sb` odd in [1, 31] and `i` odd in [1, 17] (and no other
of the 576 samples), and applying the stage twice returns every one of the
576 samples exactly to its original value. -/
theorem c8_frequency_inversion (v : Nat → ℝ) :
    (∀ sb i, sb < 32 → i < 18 →
      frequencyInversion v (sb * 18 + i)
        = if sb % 2 = 1 ∧ i % 2 = 1 then -(v (sb * 18 + i)) else v (sb * 18 + i)) ∧
    (∀ j, j < 576 → frequencyInversion (frequencyInversion v) j = v j) := by
  have hchar : ∀ (w : Nat → ℝ) (j : Nat),
      frequencyInversion w j = if j ∈ fiIndices then -w j else w j := by
    intro w j
    rw [frequencyInversion_eq_flat]
    exact foldl_negAt fiIndices fiIndices_nodup w j
  constructor
  · intro sb i hsb hi
    rw [hchar]
    have hdiv : (sb * 18 + i) / 18 = sb := by omega
    have hmod : (sb * 18 + i) % 18 = i := by omega
    by_cases hc : sb % 2 = 1 ∧ i % 2 = 1
    · rw [if_pos hc, if_pos ((mem_fiIndices _).mpr (by rw [hdiv, hmod]; exact ⟨by omega, hc.1, hc.2⟩))]
    · rw [if_neg hc, if_neg (fun hm => hc (by
        have := (mem_fiIndices _).mp hm
        rw [hdiv, hmod] at this
        exact ⟨this.2.1, this.2.2⟩))]
  · intro j _
    rw [hchar, hchar]
    by_cases hm : j ∈ fiIndices
    · simp [hm]
    · simp [hm]

/-- C8 witness: sample (sb, i) = (1, 1) of the constant-2 vector is negated,
and double inversion restores sample 0. -/
theorem c8_frequency_inversion_witness :
    frequencyInversion (fun _ => (2 : ℝ)) (1 * 18 + 1) = -(2 : ℝ) ∧
    frequencyInversion (frequencyInversion (fun _ => (2 : ℝ))) 0 = 2 := by
  have h := c8_frequency_inversion (fun _ => (2 : ℝ))
  refine ⟨?_, h.2 0 (by norm_num)⟩
  have h1 := h.1 1 1 (by norm_num) (by norm_num)
  simpa using h1

/-! ## Streaming reader (src/decode.go, `(*Decoder).readFrame` and
`(*Decoder).Read`) -/

/-- The errors `readNextFrame` can produce, as `readFrame` distinguishes
them: `io.EOF` (clean end of source), `*consts.UnexpectedEOF`, and the
`fmt.Errorf` errors for unsupported (wrong MPEG version / layer, free
bitrate) and malformed frames — the latter two are opaque to `readFrame`
and just carry a message. -/
inductive FrameError where
  | eof : FrameError
  | unexpectedEof : String → FrameError
  | unsupported : String → FrameError
  | malformed : String → FrameError
  deriving Repr, DecidableEq

/-- The error translation of `(*Decoder).readFrame`: `io.EOF` stays
`io.EOF`, a `*consts.UnexpectedEOF` becomes `io.EOF`, every other error is
returned unchanged. -/
def readFrameErr (e : FrameError) : FrameError :=
  match e with
  | .eof => .eof
  | .unexpectedEof _ => .eof
  | e => e

/-- `(*Decoder).Read`: the per-frame reads are modelled by `frames`, the
list of upcoming `readNextFrame` outcomes (an `ok` frame contributes its
`Decode()` bytes, which `readFrame` appends to the pending buffer); `buf`
is the decoder's pending PCM buffer and `n` the caller's buffer length.
The loop `for len(d.buf) == 0 { readFrame }` is the recursion; `copy`
returns the first `min n (len buf)` bytes. An exhausted outcome list is a
source at clean EOF. Returns the bytes handed to the caller plus the
remaining frames and buffer, or the error `Read` returns. -/
def decoderRead (frames : List (Except FrameError (List Nat))) (buf : List Nat)
    (n : Nat) :
    Except FrameError (List Nat × List (Except FrameError (List Nat)) × List Nat) :=
  match buf with
  | b :: bs => .ok ((b :: bs).take n, frames, (b :: bs).drop n)
  | [] =>
    match frames with
    | [] => .error .eof
    | .error e :: _ => .error (readFrameErr e)
    | .ok bytes :: rest => decoderRead rest bytes n

/-- C9: when the pending buffer is empty and the next frame read fails,
`Read` maps `Eof` and `UnexpectedEof` to end-of-stream (`io.EOF`) while
`Unsupported` and `Malformed` errors surface unchanged; and whenever
pending decoded PCM bytes exist they are returned to the caller before any
end-of-stream (or other frame-read outcome) is reported. -/
theorem c9_read_error_mapping (frames rest : List (Except FrameError (List Nat)))
    (buf : List Nat) (n : Nat) :
    (buf ≠ [] → decoderRead frames buf n = .ok (buf.take n, frames, buf.drop n)) ∧
    (decoderRead (.error .eof :: rest) [] n = .error .eof) ∧
    (∀ loc, decoderRead (.error (.unexpectedEof loc) :: rest) [] n = .error .eof) ∧
    (∀ msg, decoderRead (.error (.unsupported msg) :: rest) [] n
      = .error (.unsupported msg)) ∧
    (∀ msg, decoderRead (.error (.malformed msg) :: rest) [] n
      = .error (.malformed msg)) := by
  refine ⟨?_, rfl, fun _ => rfl, fun _ => rfl, fun _ => rfl⟩
  intro hbuf
  match buf with
  | [] => exact absurd rfl hbuf
  | b :: bs => simp [decoderRead]

/-- C9 witness: one pending byte is served even though the next frame read
would fail; an `UnexpectedEof` surfaces as plain `io.EOF`. -/
theorem c9_read_error_mapping_witness :
    decoderRead [Except.error FrameError.eof] [42] 1
      = .ok ([42].take 1, [Except.error FrameError.eof], [42].drop 1) ∧
    decoderRead [Except.error (FrameError.unexpectedEof "readHeader 2")] [] 1
      = .error .eof :=
  ⟨(c9_read_error_mapping [Except.error FrameError.eof] [] [42] 1).1 (by simp),
   (c9_read_error_mapping [] [] [] 1).2.2.1 "readHeader 2"⟩

/-! ## MS stereo (src/internal/frame/frame.go, `(*Frame).stereo`, MS part) -/

/-- The four channel modes of the header's mode field. -/
inductive ChannelMode where
  | stereo : ChannelMode
  | jointStereo : ChannelMode
  | dualChannel : ChannelMode
  | singleChannel : ChannelMode
  deriving Repr, DecidableEq, BEq

/-- Modelled from the spec: `FrameHeader.UseMSStereo` (the frameheader
method is not under src/); per spec §4.8, MS stereo applies when the mode
is joint stereo and mode-extension bit 0 is set. -/
def useMSStereo (mode : ChannelMode) (modeExt : Nat) : Bool :=
  mode == ChannelMode.jointStereo && modeExt.testBit 0

/-- One iteration of the MS loop: `left` and `right` are computed from the
current samples before either is stored back. -/
def msStep (c : ℝ) (st : (Nat → ℝ) × (Nat → ℝ)) (i : Nat) : (Nat → ℝ) × (Nat → ℝ) :=
  let left := (st.1 i + st.2 i) * c
  let right := (st.1 i - st.2 i) * c
  (fun j => if j = i then left else st.1 j, fun j => if j = i then right else st.2 j)

/-- The MS-stereo block of `(*Frame).stereo`: when `UseMSStereo()`, pick
`i := 1` unless `Count1[gr][0] > Count1[gr][1]`, set `max_pos :=
Count1[gr][i]`, and transform indices `0 ≤ i < max_pos`. The constant
`invSqrt2 = math.Sqrt2 / 2` is the parameter `c`. -/
def stereoMS (mode : ChannelMode) (modeExt : Nat) (c : ℝ)
    (count1ch0 count1ch1 : Nat) (lr : (Nat → ℝ) × (Nat → ℝ)) :
    (Nat → ℝ) × (Nat → ℝ) :=
  if useMSStereo mode modeExt then
    let i := if count1ch1 < count1ch0 then 0 else 1
    let maxPos := if i = 0 then count1ch0 else count1ch1
    (List.range maxPos).foldl (msStep c) lr
  else lr

theorem msLoop_char (c : ℝ) (L R : Nat → ℝ) (nn : Nat) :
    ∀ j, (((List.range nn).foldl (msStep c) (L, R)).1 j
        = if j < nn then (L j + R j) * c else L j) ∧
      (((List.range nn).foldl (msStep c) (L, R)).2 j
        = if j < nn then (L j - R j) * c else R j) := by
  induction nn with
  | zero => simp
  | succ m ih =>
    intro j
    rw [List.range_succ, List.foldl_append, List.foldl_cons, List.foldl_nil]
    set st := List.foldl (msStep c) (L, R) (List.range m) with hst
    have ihm := ih m
    rw [if_neg (Nat.lt_irrefl m), if_neg (Nat.lt_irrefl m)] at ihm
    by_cases hj : j = m
    · subst hj
      refine ⟨?_, ?_⟩
      · show (if j = j then (st.1 j + st.2 j) * c else st.1 j) = _
        rw [if_pos rfl, ihm.1, ihm.2, if_pos (Nat.lt_succ_self j)]
      · show (if j = j then (st.1 j - st.2 j) * c else st.2 j) = _
        rw [if_pos rfl, ihm.1, ihm.2, if_pos (Nat.lt_succ_self j)]
    · have ihj := ih j
      refine ⟨?_, ?_⟩
      · show (if j = m then (st.1 m + st.2 m) * c else st.1 j) = _
        rw [if_neg hj, ihj.1]
        by_cases hjm : j < m
        · rw [if_pos hjm, if_pos (by omega)]
        · rw [if_neg hjm, if_neg (by omega)]
      · show (if j = m then (st.1 m - st.2 m) * c else st.2 j) = _
        rw [if_neg hj, ihj.2]
        by_cases hjm : j < m
        · rw [if_pos hjm, if_pos (by omega)]
        · rw [if_neg hjm, if_neg (by omega)]

/-- C7: in joint-stereo mode with mode-extension bit 0 set (MS stereo
enabled), the stereo stage replaces, for every `i < max(count1[gr][0],
count1[gr][1])`, the pair `(L, R)` by `((L+R)/√2, (L−R)/√2)` and leaves
every sample at or beyond that bound unchanged by the MS transform. -/
theorem c7_ms_stereo (modeExt : Nat) (c0 c1 : Nat) (L R : Nat → ℝ) (j : Nat)
    (hbit : modeExt.testBit 0 = true) :
    (j < max c0 c1 →
      (stereoMS .jointStereo modeExt (Real.sqrt 2 / 2) c0 c1 (L, R)).1 j
          = (L j + R j) / Real.sqrt 2 ∧
        (stereoMS .jointStereo modeExt (Real.sqrt 2 / 2) c0 c1 (L, R)).2 j
          = (L j - R j) / Real.sqrt 2) ∧
    (max c0 c1 ≤ j →
      (stereoMS .jointStereo modeExt (Real.sqrt 2 / 2) c0 c1 (L, R)).1 j = L j ∧
        (stereoMS .jointStereo modeExt (Real.sqrt 2 / 2) c0 c1 (L, R)).2 j = R j) := by
  have hsq : Real.sqrt 2 * Real.sqrt 2 = 2 := Real.mul_self_sqrt (by norm_num)
  have hne : Real.sqrt 2 ≠ 0 := by
    have : (0 : ℝ) < Real.sqrt 2 := Real.sqrt_pos.mpr (by norm_num)
    exact this.ne'
  have hconst : ∀ x : ℝ, x * (Real.sqrt 2 / 2) = x / Real.sqrt 2 := by
    intro x
    rw [eq_div_iff hne, mul_assoc, div_mul_eq_mul_div, hsq]
    norm_num
  have hms : useMSStereo .jointStereo modeExt = true := by
    rw [useMSStereo, hbit]
    rfl
  have hmax : (if (if c1 < c0 then 0 else 1) = 0 then c0 else c1) = max c0 c1 := by
    rcases Nat.lt_or_ge c1 c0 with hlt | hle
    · rw [if_pos hlt, if_pos rfl]
      exact (Nat.max_eq_left (Nat.le_of_lt hlt)).symm
    · rw [if_neg (Nat.not_lt.mpr hle), if_neg (by norm_num)]
      exact (Nat.max_eq_right hle).symm
  have hunfold : stereoMS .jointStereo modeExt (Real.sqrt 2 / 2) c0 c1 (L, R)
      = (List.range (max c0 c1)).foldl (msStep (Real.sqrt 2 / 2)) (L, R) := by
    rw [stereoMS, if_pos hms]
    simp only
    rw [hmax]
  have hchar := msLoop_char (Real.sqrt 2 / 2) L R (max c0 c1) j
  have h1 := hchar.1
  have h2 := hchar.2
  constructor
  · intro hlt
    rw [if_pos hlt] at h1
    rw [if_pos hlt] at h2
    rw [hunfold]
    exact ⟨h1.trans (hconst _), h2.trans (hconst _)⟩
  · intro hge
    rw [if_neg (by omega)] at h1
    rw [if_neg (by omega)] at h2
    rw [hunfold]
    exact ⟨h1, h2⟩

/-- C7 witness: `count1 = (1, 0)`, constant channels `L = 3`, `R = 1`,
sample 0 is MS-transformed. -/
theorem c7_ms_stereo_witness :
    (stereoMS .jointStereo 1 (Real.sqrt 2 / 2) 1 0 ((fun _ => 3), (fun _ => 1))).1 0
      = ((3 : ℝ) + 1) / Real.sqrt 2 ∧
    (stereoMS .jointStereo 1 (Real.sqrt 2 / 2) 1 0 ((fun _ => 3), (fun _ => 1))).2 0
      = ((3 : ℝ) - 1) / Real.sqrt 2 := by
  have h := (c7_ms_stereo 1 1 0 (fun _ => 3) (fun _ => 1) 0 (by decide)).1 (by decide)
  simpa using h

/-! ## Scale-factor and Huffman read (src/types.go `readHuffman`,
src/maindata.go / src/unnamed/part_003 `readMainL3`).

`huffmanDecode` and its 34 tables live in the internal/huffman package,
which is not under src/: the embedding is therefore parameterized over an
arbitrary decode function `hd` (table number and cursor in, the decoded
`(x, y, v, w)` and the advanced cursor out, or an error), so the theorems
hold for every possible table content. The `is` sample array is modelled
as `Nat → Int` with an explicit bounds check on every write: a Go
out-of-range panic becomes the `indexOutOfRange` error. -/

/-- Errors of the Huffman read stage. -/
inductive HErr where
  | indexOutOfRange : HErr
  | invalidIndexI : HErr
  | invalidIndexJ : HErr
  | decodeFailed : HErr
  deriving Repr, DecidableEq

/-- An arbitrary `huffmanDecode`: table number, cursor ↦ `(x, y, v, w)` and
the advanced cursor, or an error. -/
def HuffDec : Type :=
  Nat → Bits → Except HErr (Int × Int × Int × Int × Bits)

/-- The store `mainData.is[gr][ch][i] = x` for an in-range index. A Go
index-out-of-range panic is modelled by an explicit `576 ≤ i` (or `i < 0`)
check before each store that can be out of range. -/
def upd (a : Nat → Int) (i : Nat) (x : Int) : Nat → Int :=
  fun j => if j = i then x else a j

/-- The side info of one granule/channel, as `readMainL3`/`readHuffman`
consume it. -/
structure GrChInfo where
  part2_3_length : Nat
  big_values : Nat
  scalefac_compress : Nat
  win_switch_flag : Nat
  block_type : Nat
  mixed_block_flag : Nat
  table_select0 : Nat
  table_select1 : Nat
  table_select2 : Nat
  region0_count : Nat
  region1_count : Nat
  count1table_select : Nat

/-- The big-values loop of `readHuffman` (`for is_pos := 0; is_pos <
big_values*2; is_pos++ { …; is_pos++ }`): each iteration decodes one
codeword and stores `x, y`; the countdown `n` is the number of remaining
iterations, `big_values` at entry. -/
def bigValuesLoop (hd : HuffDec) (r1 r2 t0 t1 t2 : Nat) :
    Nat → Nat → Bits → (Nat → Int) → Except HErr (Bits × (Nat → Int))
  | 0, _, m, a => .ok (m, a)
  | n + 1, is_pos, m, a =>
    let tn := if is_pos < r1 then t0 else if is_pos < r2 then t1 else t2
    match hd tn m with
    | .error e => .error e
    | .ok (x, y, _, _, m') =>
      if 576 ≤ is_pos then .error .indexOutOfRange
      else
        if 576 ≤ is_pos + 1 then .error .indexOutOfRange
        else bigValuesLoop hd r1 r2 t0 t1 t2 n (is_pos + 2) m'
          (upd (upd a is_pos x) (is_pos + 1) y)

/-- The count1 loop of `readHuffman` (`for is_pos <= 572 && m.BitPos() <=
bit_pos_end`): stores `v, w, x, y` with a break after each of the first
three whenever `is_pos` reaches 576 (the break comparison is exactly the
bound guard, so no store in this loop can be out of range — the loop entry
condition already gives `is_pos ≤ 572` for the first store). The fuel
counts down from `573 - is_pos`; it reaches 0 exactly when the `is_pos ≤
572` condition has become false, so the 0 case returns like the loop
exit. -/
def count1Loop (hd : HuffDec) (tn bit_pos_end : Nat) :
    Nat → Nat → Bits → (Nat → Int) → Except HErr (Nat × Bits × (Nat → Int))
  | 0, is_pos, m, a => .ok (is_pos, m, a)
  | fuel + 1, is_pos, m, a =>
    if is_pos ≤ 572 ∧ m.bitPos ≤ bit_pos_end then
      match hd tn m with
      | .error e => .error e
      | .ok (x, y, v, w, m') =>
        let a1 := upd a is_pos v
        if 576 ≤ is_pos + 1 then .ok (is_pos + 1, m', a1)
        else
          let a2 := upd a1 (is_pos + 1) w
          if 576 ≤ is_pos + 2 then .ok (is_pos + 2, m', a2)
          else
            let a3 := upd a2 (is_pos + 2) x
            if 576 ≤ is_pos + 3 then .ok (is_pos + 3, m', a3)
            else count1Loop hd tn bit_pos_end fuel (is_pos + 4) m'
              (upd a3 (is_pos + 3) y)
    else .ok (is_pos, m, a)

/-- The zero-fill loop `for is_pos < 576 { is[is_pos] = 0; is_pos++ }`,
whose start index is an `int` that can be negative after the rollback (the
first store then panics). Fuel is `(576 - start).toNat`, 0 exactly when the
condition is already false. -/
def zeroLoop : Nat → Int → (Nat → Int) → Except HErr (Nat → Int)
  | 0, _, a => .ok a
  | fuel + 1, i, a =>
    if i < 576 then
      if i < 0 then .error .indexOutOfRange
      else zeroLoop fuel (i + 1) (upd a i.toNat 0)
    else .ok a

/-- The `region_1_start`/`region_2_start` computation of `readHuffman`:
(36, 576) for short blocks, otherwise the `sfbl` lookups at
`region0_count + 1` and `region0_count + region1_count + 2`, with the
bounds checks of the source. -/
def huffRegions (sfbl : List Nat) (si : GrChInfo) : Except HErr (Nat × Nat) :=
  if si.win_switch_flag = 1 ∧ si.block_type = 2 then .ok (36, 576)
  else
    let i := si.region0_count + 1
    if sfbl.length ≤ i then .error .invalidIndexI
    else
      let j := si.region0_count + si.region1_count + 2
      if sfbl.length ≤ j then .error .invalidIndexJ
      else .ok (sfbl.getD i 0, sfbl.getD j 0)

/-- `readHuffman` from src/types.go (same code in src/unnamed/part_000):
`sfbl` is the long scale-factor-band index list for this sample rate
(`sfBandIndicesSet[sfreq].l`), `part2start` the recorded `part_2_start`,
`count1in` the incoming `sideInfo.count1[gr][ch]` value (0 for a fresh
frame) — the `part2_3_length = 0` branch zeroes the samples and returns
without touching it. Returns the cursor, the sample array and the `count1`
value. -/
def readHuffman (hd : HuffDec) (sfbl : List Nat) (si : GrChInfo)
    (part2start : Nat) (count1in : Int) (m : Bits) (a : Nat → Int) :
    Except HErr (Bits × (Nat → Int) × Int) :=
  if si.part2_3_length = 0 then
    match zeroLoop 576 0 a with
    | .error e => .error e
    | .ok a1 => .ok (m, a1, count1in)
  else
    let bit_pos_end := part2start + si.part2_3_length - 1
    match huffRegions sfbl si with
    | .error e => .error e
    | .ok (r1, r2) =>
      match bigValuesLoop hd r1 r2 si.table_select0 si.table_select1 si.table_select2
          si.big_values 0 m a with
      | .error e => .error e
      | .ok (m1, a1) =>
        match count1Loop hd (si.count1table_select + 32) bit_pos_end
            (573 - si.big_values * 2) (si.big_values * 2) m1 a1 with
        | .error e => .error e
        | .ok (is_pos2, m2, a2) =>
          let is_pos3 : Int :=
            if bit_pos_end + 1 < m2.bitPos then (is_pos2 : Int) - 4 else (is_pos2 : Int)
          match zeroLoop (576 - is_pos3).toNat is_pos3 a2 with
          | .error e => .error e
          | .ok a3 => .ok (m2.setPos (bit_pos_end + 1), a3, is_pos3)

/-- The `count1` component of a Huffman-read outcome. -/
def count1Of (r : Except HErr (Bits × (Nat → Int) × Int)) : Option Int :=
  match r with
  | .ok (_, _, c1) => some c1
  | .error _ => none

/-- The cursor bit position of a Huffman-read outcome. -/
def huffPosOf (r : Except HErr (Bits × (Nat → Int) × Int)) : Option Nat :=
  match r with
  | .ok (m, _, _) => some m.bitPos
  | .error _ => none

/-- `mpeg1ScalefacSizes` (src/maindata.go / src/unnamed/part_003): the
16-entry `(slen1, slen2)` table. -/
def mpeg1ScalefacSizes : List (Nat × Nat) :=
  [(0, 0), (0, 1), (0, 2), (0, 3), (3, 0), (1, 1), (1, 2), (1, 3),
   (2, 1), (2, 2), (2, 3), (3, 1), (3, 2), (3, 3), (4, 2), (4, 3)]

/-- The per-frame scale-factor store (`scalefac_l[gr][ch][sfb]` and
`scalefac_s[gr][ch][sfb][win]`). -/
structure ScaleFacData where
  l : Nat → Nat → Nat → Nat
  s : Nat → Nat → Nat → Nat → Nat

/-- `md.scalefac_l[gr][ch][sfb] = v`. -/
def setScalefacL (md : ScaleFacData) (gr ch sfb v : Nat) : ScaleFacData :=
  { md with l := fun g c b => if g = gr ∧ c = ch ∧ b = sfb then v else md.l g c b }

/-- `md.scalefac_s[gr][ch][sfb][win] = v`. -/
def setScalefacS (md : ScaleFacData) (gr ch sfb win v : Nat) : ScaleFacData :=
  { md with s := fun g c b w => if g = gr ∧ c = ch ∧ b = sfb ∧ w = win then v else md.s g c b w }

/-- A `for sfb := lo; sfb < lo+len; sfb++ { scalefac_l[gr][ch][sfb] =
m.Bits(slen) }` loop. -/
def readScalefacLRange (gr ch slen lo len : Nat) (st : ScaleFacData × Bits) :
    ScaleFacData × Bits :=
  (List.range' lo len).foldl
    (fun st sfb =>
      let r := st.2.bits slen
      (setScalefacL st.1 gr ch sfb r.1, r.2)) st

/-- A granule-1 copy loop `scalefac_l[1][ch][sfb] = scalefac_l[0][ch][sfb]`. -/
def copyScalefacLRange (ch lo len : Nat) (st : ScaleFacData × Bits) :
    ScaleFacData × Bits :=
  (List.range' lo len).foldl
    (fun st sfb => (setScalefacL st.1 1 ch sfb (st.1.l 0 ch sfb), st.2)) st

/-- The short-block scale-factor loop over `sfb ∈ [lo, lo+len)` and the
three windows, with `nbits = slen1` below band 6 and `slen2` from band 6. -/
def readScalefacSRange (gr ch slen1 slen2 lo len : Nat) (st : ScaleFacData × Bits) :
    ScaleFacData × Bits :=
  (List.range' lo len).foldl
    (fun st sfb =>
      let nbits := if sfb < 6 then slen1 else slen2
      (List.range' 0 3).foldl
        (fun st2 win =>
          let r := st2.2.bits nbits
          (setScalefacS st2.1 gr ch sfb win r.1, r.2)) st) st

/-- The scale-factor-reading part of `readMainL3` for one `(gr, ch)`
(src/unnamed/part_003 lines 61-137): short blocks read 8 long + 9×3 short
factors (mixed) or 12×3 short factors, long blocks read the four band
ranges, each skipped and copied from granule 0 when `gr = 1` and the
channel's `scfsi` bit for that range is 1. -/
def readScalefacs (gr ch : Nat) (si : GrChInfo) (scfsi : Nat → Nat)
    (st : ScaleFacData × Bits) : ScaleFacData × Bits :=
  let slen1 := (mpeg1ScalefacSizes.getD si.scalefac_compress (0, 0)).1
  let slen2 := (mpeg1ScalefacSizes.getD si.scalefac_compress (0, 0)).2
  if si.win_switch_flag ≠ 0 ∧ si.block_type = 2 then
    if si.mixed_block_flag ≠ 0 then
      readScalefacSRange gr ch slen1 slen2 3 9 (readScalefacLRange gr ch slen1 0 8 st)
    else
      readScalefacSRange gr ch slen1 slen2 0 12 st
  else
    let st1 :=
      if scfsi 0 = 0 ∨ gr = 0 then readScalefacLRange gr ch slen1 0 6 st
      else if scfsi 0 = 1 ∧ gr = 1 then copyScalefacLRange ch 0 6 st
      else st
    let st2 :=
      if scfsi 1 = 0 ∨ gr = 0 then readScalefacLRange gr ch slen1 6 5 st1
      else if scfsi 1 = 1 ∧ gr = 1 then copyScalefacLRange ch 6 5 st1
      else st1
    let st3 :=
      if scfsi 2 = 0 ∨ gr = 0 then readScalefacLRange gr ch slen2 11 5 st2
      else if scfsi 2 = 1 ∧ gr = 1 then copyScalefacLRange ch 11 5 st2
      else st2
    if scfsi 3 = 0 ∨ gr = 0 then readScalefacLRange gr ch slen2 16 5 st3
    else if scfsi 3 = 1 ∧ gr = 1 then copyScalefacLRange ch 16 5 st3
    else st3

/-- One `(gr, ch)` step of `readMainL3`: record `part_2_start :=
m.BitPos()`, read the scale factors, then `readHuffman`. -/
def readGrCh (hd : HuffDec) (sfbl : List Nat) (gr ch : Nat) (si : GrChInfo)
    (scfsi : Nat → Nat) (count1in : Int) (md : ScaleFacData) (m : Bits)
    (a : Nat → Int) : Except HErr (ScaleFacData × Bits × (Nat → Int) × Int) :=
  match readHuffman hd sfbl si m.bitPos count1in
      (readScalefacs gr ch si scfsi (md, m)).2 a with
  | .error e => .error e
  | .ok (m', a', c1) => .ok ((readScalefacs gr ch si scfsi (md, m)).1, m', a', c1)

/-- The cursor bit position of a `(gr, ch)` read outcome. -/
def grChPosOf (r : Except HErr (ScaleFacData × Bits × (Nat → Int) × Int)) : Option Nat :=
  match r with
  | .ok (_, m, _, _) => some m.bitPos
  | .error _ => none

/-- A stand-in decode function for concrete runs: decodes every codeword
to `(0, 0, 0, 0)` without consuming bits (the shape of Huffman table 0). -/
def hdStub : HuffDec := fun _ m => .ok (0, 0, 0, 0, m)

theorem bigValuesLoop_bound (hd : HuffDec) (r1 r2 t0 t1 t2 : Nat) :
    ∀ (n is_pos : Nat) (m : Bits) (a : Nat → Int) (res : Bits × (Nat → Int)),
      bigValuesLoop hd r1 r2 t0 t1 t2 n is_pos m a = .ok res →
      n = 0 ∨ is_pos + 2 * n ≤ 576 := by
  intro n
  induction n with
  | zero =>
    intro _ _ _ _ _
    exact Or.inl rfl
  | succ k ih =>
    intro is_pos m a res h
    right
    simp only [bigValuesLoop] at h
    split at h
    · simp at h
    · split at h
      · simp at h
      · split at h
        · simp at h
        · rename_i hb2
          have hrec := ih (is_pos + 2) _ _ res h
          rcases hrec with h0 | hle
          · subst h0
            omega
          · omega

theorem count1Loop_bound (hd : HuffDec) (tn bpe : Nat) :
    ∀ (fuel is_pos : Nat) (m : Bits) (a : Nat → Int)
      (res : Nat × Bits × (Nat → Int)),
      count1Loop hd tn bpe fuel is_pos m a = .ok res →
      is_pos ≤ res.1 ∧ (is_pos ≤ 576 → res.1 ≤ 576) := by
  intro fuel
  induction fuel with
  | zero =>
    intro is_pos m a res h
    simp only [count1Loop] at h
    cases h
    simp
  | succ k ih =>
    intro is_pos m a res h
    simp only [count1Loop] at h
    split at h
    · rename_i hcond
      split at h
      · simp at h
      · split at h
        · cases h
          simp
          omega
        · split at h
          · cases h
            simp
            omega
          · split at h
            · cases h
              simp
              omega
            · have hrec := ih (is_pos + 4) _ _ res h
              omega
    · cases h
      simp

theorem zeroLoop_neg (fuel : Nat) (i : Int) (a a' : Nat → Int)
    (hf : 0 < fuel) (hi : i < 0) : zeroLoop fuel i a ≠ .ok a' := by
  match fuel, hf with
  | f + 1, _ =>
    intro h
    simp only [zeroLoop] at h
    rw [if_pos (by omega), if_pos hi] at h
    simp at h

/-- Everything a successful `readHuffman` guarantees about its cursor and
`count1` outputs. -/
theorem readHuffman_ok (hd : HuffDec) (sfbl : List Nat) (si : GrChInfo)
    (part2start : Nat) (count1in : Int) (m : Bits) (a : Nat → Int)
    (r : Bits × (Nat → Int) × Int)
    (hok : readHuffman hd sfbl si part2start count1in m a = .ok r) :
    (si.part2_3_length = 0 → r.1 = m ∧ r.2.2 = count1in) ∧
    (1 ≤ si.part2_3_length →
      r.1.bitPos = part2start + si.part2_3_length ∧
      0 ≤ r.2.2 ∧ r.2.2 ≤ 576 ∧ (si.big_values : Int) * 2 - 4 ≤ r.2.2) := by
  rw [readHuffman] at hok
  by_cases hp : si.part2_3_length = 0
  · rw [if_pos hp] at hok
    refine ⟨fun _ => ?_, fun hge => by omega⟩
    cases hz : zeroLoop 576 0 a with
    | error e =>
      rw [hz] at hok
      simp at hok
    | ok a1 =>
      rw [hz] at hok
      simp only [] at hok
      cases hok
      exact ⟨rfl, rfl⟩
  · rw [if_neg hp] at hok
    refine ⟨fun h0 => absurd h0 hp, fun hge => ?_⟩
    cases hreg : huffRegions sfbl si with
    | error e =>
      rw [hreg] at hok
      simp at hok
    | ok rr =>
      rw [hreg] at hok
      obtain ⟨r1, r2⟩ := rr
      simp only [] at hok
      cases hbv : bigValuesLoop hd r1 r2 si.table_select0 si.table_select1
          si.table_select2 si.big_values 0 m a with
      | error e =>
        rw [hbv] at hok
        simp at hok
      | ok p1 =>
        rw [hbv] at hok
        obtain ⟨m1, a1⟩ := p1
        simp only [] at hok
        cases hc1 : count1Loop hd (si.count1table_select + 32)
            (part2start + si.part2_3_length - 1) (573 - si.big_values * 2)
            (si.big_values * 2) m1 a1 with
        | error e =>
          rw [hc1] at hok
          simp at hok
        | ok p2 =>
          rw [hc1] at hok
          obtain ⟨is_pos2, m2, a2⟩ := p2
          simp only [] at hok
          have hbvb := bigValuesLoop_bound hd r1 r2 _ _ _ _ _ _ _ _ hbv
          have hc1b := count1Loop_bound hd _ _ _ _ _ _ _ hc1
          have hstart : si.big_values * 2 ≤ 576 := by
            rcases hbvb with h0 | hle
            · rw [h0]
              omega
            · omega
          have his2 : si.big_values * 2 ≤ is_pos2 ∧ is_pos2 ≤ 576 :=
            ⟨hc1b.1, hc1b.2 (by omega)⟩
          set is_pos3 : Int :=
            if part2start + si.part2_3_length - 1 + 1 < m2.bitPos
            then (is_pos2 : Int) - 4 else (is_pos2 : Int) with his3
          cases hzl : zeroLoop (576 - is_pos3).toNat is_pos3 a2 with
          | error e =>
            rw [hzl] at hok
            simp at hok
          | ok a3 =>
            rw [hzl] at hok
            simp only [] at hok
            cases hok
            have hnonneg : 0 ≤ is_pos3 := by
              by_contra hneg
              push_neg at hneg
              exact zeroLoop_neg _ _ _ _ (by omega) hneg hzl
            have hrange : is_pos3 ≤ 576 ∧ (si.big_values : Int) * 2 - 4 ≤ is_pos3 := by
              rw [his3]
              split <;> omega
            refine ⟨?_, hnonneg, hrange.1, hrange.2⟩
            show (m2.setPos (part2start + si.part2_3_length - 1 + 1)).bitPos = _
            rw [Bits.bitPos_setPos]
            omega

set_option maxRecDepth 10000 in
/-- C4 counterexample: with `part2_3_length = 0` and `big_values = 1` (a
side-info combination the parser will happily produce from a malformed
stream), the Huffman read stage returns without error but never computes
`count1`, leaving the fresh frame's 0 — and `big_values*2 = 2 ≤ 0` is
false. The decode function is never consulted in this branch, so the stub
stands in for the real table decoder harmlessly. -/
theorem c4_counterexample :
    count1Of (readHuffman hdStub []
      { part2_3_length := 0, big_values := 1, scalefac_compress := 0,
        win_switch_flag := 0, block_type := 0, mixed_block_flag := 0,
        table_select0 := 0, table_select1 := 0, table_select2 := 0,
        region0_count := 0, region1_count := 0, count1table_select := 0 }
      0 0 ⟨[0, 0], 0, 0⟩ (fun _ => 0)) = some 0 ∧ ¬ ((1 : Int) * 2 ≤ 0) := by
  constructor
  · rfl
  · decide

set_option maxRecDepth 10000 in
/-- C4 (amended): whenever the scale-factor and Huffman read of a
granule/channel returns without error (for any decode function and any
band-index table), if `part2_3_length > 0` then `0 ≤ count1 ≤ 576` and
`count1 ≥ big_values*2 − 4` (the end-of-section rollback can leave `count1`
four short of `big_values*2`); if `part2_3_length = 0` the stage leaves
`count1` at its incoming value (0 for a fresh frame) regardless of
`big_values`. -/
theorem c4_amended_count1_bounds (hd : HuffDec) (sfbl : List Nat) (si : GrChInfo)
    (part2start : Nat) (count1in : Int) (m : Bits) (a : Nat → Int) (c1 : Int)
    (hok : count1Of (readHuffman hd sfbl si part2start count1in m a) = some c1) :
    (si.part2_3_length = 0 → c1 = count1in) ∧
    (1 ≤ si.part2_3_length →
      0 ≤ c1 ∧ c1 ≤ 576 ∧ (si.big_values : Int) * 2 - 4 ≤ c1) := by
  cases hres : readHuffman hd sfbl si part2start count1in m a with
  | error e =>
    rw [hres] at hok
    simp [count1Of] at hok
  | ok r =>
    obtain ⟨m', a', c⟩ := r
    rw [hres] at hok
    have h := readHuffman_ok hd sfbl si part2start count1in m a (m', a', c) hres
    have hc : c = c1 := by simpa [count1Of] using hok
    subst hc
    refine ⟨fun h0 => (h.1 h0).2, fun hge => ?_⟩
    obtain ⟨_, h2, h3, h4⟩ := h.2 hge
    exact ⟨h2, h3, h4⟩

set_option maxRecDepth 100000 in
set_option maxHeartbeats 1000000 in
/-- C4 witness: `big_values = 1`, `part2_3_length = 1`, the stub decoder:
the stage succeeds with `count1 = 574`, inside the amended bounds. -/
theorem c4_amended_count1_bounds_witness :
    (0 : Int) ≤ 574 ∧ (574 : Int) ≤ 576 ∧ ((1 : Nat) : Int) * 2 - 4 ≤ 574 :=
  (c4_amended_count1_bounds hdStub []
      { part2_3_length := 1, big_values := 1, scalefac_compress := 0,
        win_switch_flag := 1, block_type := 2, mixed_block_flag := 0,
        table_select0 := 0, table_select1 := 0, table_select2 := 0,
        region0_count := 0, region1_count := 0, count1table_select := 0 }
      0 0 ⟨[255, 255], 0, 0⟩ (fun _ => 0) 574 (by decide)).2 (by decide)

set_option maxRecDepth 10000 in
/-- C5 counterexample: a granule/channel with `part2_3_length = 0` but
`scalefac_compress = 1` (`slen1 = 0`, `slen2 = 1`): the long-block
scale-factor read consumes 10 bits, and the Huffman stage's early return
never snaps the cursor, so it ends at bit 10, not at `part_2_start +
part2_3_length = 0`. The decode function is never consulted. -/
theorem c5_counterexample :
    grChPosOf (readGrCh hdStub [] 0 0
      { part2_3_length := 0, big_values := 0, scalefac_compress := 1,
        win_switch_flag := 0, block_type := 0, mixed_block_flag := 0,
        table_select0 := 0, table_select1 := 0, table_select2 := 0,
        region0_count := 0, region1_count := 0, count1table_select := 0 }
      (fun _ => 0) 0 ⟨fun _ _ _ => 0, fun _ _ _ _ => 0⟩ ⟨[0, 0], 0, 0⟩
      (fun _ => 0)) = some 10 ∧ (10 : Nat) ≠ 0 + 0 := by
  constructor
  · rfl
  · decide

set_option maxRecDepth 10000 in
/-- C5 (amended): whenever the scale-factor and Huffman read of a
granule/channel completes successfully with `part2_3_length > 0`, the
main-data cursor ends at exactly `part_2_start + part2_3_length`, where
`part_2_start` is the cursor position recorded before the scale factors
were read; when `part2_3_length = 0` the cursor instead stays wherever the
scale-factor read left it, which can be past `part_2_start`. -/
theorem c5_amended_cursor (hd : HuffDec) (sfbl : List Nat) (gr ch : Nat)
    (si : GrChInfo) (scfsi : Nat → Nat) (count1in : Int) (md : ScaleFacData)
    (m : Bits) (a : Nat → Int) (p : Nat)
    (hok : grChPosOf (readGrCh hd sfbl gr ch si scfsi count1in md m a) = some p)
    (hge : 1 ≤ si.part2_3_length) :
    p = m.bitPos + si.part2_3_length := by
  rw [readGrCh] at hok
  cases hres : readHuffman hd sfbl si m.bitPos count1in
      (readScalefacs gr ch si scfsi (md, m)).2 a with
  | error e =>
    rw [hres] at hok
    simp [grChPosOf] at hok
  | ok r =>
    obtain ⟨m', a', c⟩ := r
    rw [hres] at hok
    have h := readHuffman_ok hd sfbl si m.bitPos count1in
      (readScalefacs gr ch si scfsi (md, m)).2 a (m', a', c) hres
    have hpos := (h.2 hge).1
    have hp : m'.bitPos = p := by simpa [grChPosOf] using hok
    simp only [] at hpos
    omega

set_option maxRecDepth 100000 in
set_option maxHeartbeats 1000000 in
/-- C5 witness: `part2_3_length = 1`, zero-width scale factors, the stub
decoder: the cursor ends at bit `0 + 1 = 1`. -/
theorem c5_amended_cursor_witness : (1 : Nat) = Bits.bitPos ⟨[7], 0, 0⟩ + 1 :=
  c5_amended_cursor hdStub [] 0 0
    { part2_3_length := 1, big_values := 0, scalefac_compress := 0,
      win_switch_flag := 1, block_type := 2, mixed_block_flag := 0,
      table_select0 := 0, table_select1 := 0, table_select2 := 0,
      region0_count := 0, region1_count := 0, count1table_select := 0 }
    (fun _ => 0) 0 ⟨fun _ _ _ => 0, fun _ _ _ _ => 0⟩ ⟨[7], 0, 0⟩ (fun _ => 0) 1
    (by decide) (by decide)

end GoMp3
